import Mathlib

/-!
Verification of the mrkl crate: a generic Merkle tree library with a
sequential builder (src/tree/builder.rs), a parallel builder
(src/tree/parallel.rs), the tree data model with hash-based equality and
child iterators (src/tree/mod.rs), and reference digest hashers
(src/digest.rs).

The embedding is a shallow, functional rendering of the Rust source:

* generic type parameters `D: Hasher<L::Input>` / `L: ExtractData` become a
  `Builder` record of three functions (`hash_input`, `hash_children`,
  `extract_data`);
* `Box<[Node]>` children become `List (Node H T)`;
* Rust iterators taken by value become explicit `List` arguments, with the
  consumed remainder returned alongside the result;
* fallible paths return `Except EmptyTree`; panics and debug assertions
  (which abort rather than return) are modelled as `Option.none` in an
  outer `Option` layer, so a build entry point has type
  `Option (Except EmptyTree (MerkleTree H T))`;
* `rayon::join(f, g)` evaluates both closures and is deterministic in the
  values produced, so it is modelled as plain evaluation of both branches.
-/

section DataModel

variable {In H T : Type}

/-- Rust `tree::EmptyTree`: the error value returned when a tree was attempted
to be constructed from empty input. -/
inductive EmptyTree : Type where
  | emptyTree
deriving DecidableEq, Repr

/-- Rust `tree::Node`: a tagged union of a leaf node (`Node::Leaf(LeafNode {
hash, data })`) and an internal node (`Node::Hash(HashNode { hash,
children })`).  The constructor `internal` plays the role of `Node::Hash`,
with the two payload fields inlined. -/
inductive Node (H T : Type) : Type where
  | leaf (hash : H) (data : T)
  | internal (hash : H) (children : List (Node H T))
deriving Repr

/-- Rust `tree::LeafNode`: standalone record used by the cross-type equality
impls. -/
structure LeafNode (H T : Type) : Type where
  hash : H
  data : T

/-- Rust `tree::HashNode`: standalone record used by the cross-type equality
impls. -/
structure HashNode (H T : Type) : Type where
  hash : H
  children : List (Node H T)

/-- Rust `Node::hash()`: the stored hash of either node variant. -/
def Node.hash : Node H T → H
  | .leaf h _ => h
  | .internal h _ => h

/-- Rust `tree::MerkleTree`: wraps exactly one root node. -/
structure MerkleTree (H T : Type) : Type where
  root : Node H T

/-- Rust `tree::Builder<D, L>`: the hasher and the leaf data extractor.  The
hasher contributes `hash_input` (leaf hashing, `Hasher::hash_input`) and
`hash_children` (`NodeHasher::hash_children`, receiving the ordered child
nodes exactly as the `Children` iterator yields them); the extractor
contributes `extract_data` (`ExtractData::extract_data`). -/
structure Builder (In H T : Type) : Type where
  hash_input : In → H
  hash_children : List (Node H T) → H
  extract_data : In → T

/-- Rust `Builder::make_leaf`: hash the input, extract the leaf data, return a
single-leaf tree. -/
def Builder.make_leaf (b : Builder In H T) (input : In) : MerkleTree H T :=
  ⟨.leaf (b.hash_input input) (b.extract_data input)⟩

/-- Rust `Builder::make_tree_unchecked`: hash the children and wrap them under a
new internal root. -/
def Builder.make_tree_unchecked (b : Builder In H T)
    (children : List (Node H T)) : MerkleTree H T :=
  ⟨.internal (b.hash_children children) children⟩

/-- Rust `Builder::make_tree`: `EmptyTree` on an empty child list, otherwise
`make_tree_unchecked`. -/
def Builder.make_tree (b : Builder In H T) (children : List (Node H T)) :
    Except EmptyTree (MerkleTree H T) :=
  if children.isEmpty then .error .emptyTree
  else .ok (b.make_tree_unchecked children)

/-- Rust `Builder::join`: the two trees' roots become the two children of a new
root. -/
def Builder.join (b : Builder In H T) (left right : MerkleTree H T) :
    MerkleTree H T :=
  b.make_tree_unchecked [left.root, right.root]

/-- Rust `Builder::chain_lone_child`: the tree's root becomes the single child
of a new root. -/
def Builder.chain_lone_child (b : Builder In H T) (child : MerkleTree H T) :
    MerkleTree H T :=
  b.make_tree_unchecked [child.root]

/-- Rust `Builder::collect_children_from` (via `collect_children_from_iter`):
collect the trees' roots as the children of a new root. -/
def Builder.collect_children_from (b : Builder In H T)
    (trees : List (MerkleTree H T)) : Except EmptyTree (MerkleTree H T) :=
  b.make_tree (trees.map MerkleTree.root)

/-- Rust `usize::checked_next_power_of_two` at the call sites in this crate:
the least power of two that is greater than or equal to the argument
(`1` for `0`); the `checked` overflow case does not arise over `Nat`. -/
def next_power_of_two (n : Nat) : Nat :=
  2 ^ Nat.clog 2 n

end DataModel

section SequentialBuilder

variable {In H T : Type}

/-- Rust `Builder::extract_complete_tree`: recursive helper of the sequential
`complete_tree_from`, consuming `len` items from the front of `iter` and
returning the built subtree together with the unconsumed remainder.

Deviations forced by totality, each returning `none` exactly where the
source aborts:

* `len = 0` trips the source's `debug_assert!(len != 0)`;
* an exhausted iterator in the `len == 1` arm trips the source's
  `expect` on `iter.next()`;
* in the two-subtree arm with `perfect_len = 0` the source would recurse
  with `left_len = 0` and immediately trip the callee's
  `debug_assert!(len != 0)`; that callee result is inlined here as `none`
  so that `perfect_len` is a decreasing measure. -/
def extract_complete_tree (b : Builder In H T) (iter : List In)
    (len perfect_len : Nat) : Option (MerkleTree H T × List In) :=
  if h0 : len = 0 then none
  else
    if hch : len ≤ perfect_len / 2 then
      -- no right subtree on this node; still an internal node because
      -- this branch is never taken when perfect_len == 1
      (extract_complete_tree b iter len (perfect_len / 2)).map
        fun p => (b.chain_lone_child p.1, p.2)
    else if len = 1 then
      -- iter.next(): the head is the leaf input, the tail is the remainder
      iter.head?.map fun input => (b.make_leaf input, iter.tail)
    else if hp : perfect_len = 0 then none
    else
      (extract_complete_tree b iter (perfect_len / 2)
          (perfect_len / 2)).bind
        fun p =>
          -- right_len = len - left_len never overflows or comes to 0
          (extract_complete_tree b p.2 (len - perfect_len / 2)
              (perfect_len / 2)).map
            fun q => (b.join p.1 q.1, q.2)
termination_by perfect_len
decreasing_by
  · omega
  · omega
  · omega

/-- Rust `Builder::complete_tree_from`: `EmptyTree` on a zero-length input,
otherwise delegate to `extract_complete_tree` with
`perfect_len = len.checked_next_power_of_two()`.  The trailing
`debug_assert!(iter.next().is_none())` is the `rest.isEmpty` check. -/
def Builder.complete_tree_from (b : Builder In H T) (input : List In) :
    Option (Except EmptyTree (MerkleTree H T)) :=
  if input.length = 0 then some (.error .emptyTree)
  else
    match extract_complete_tree b input input.length
        (next_power_of_two input.length) with
    | some (tree, rest) => if rest.isEmpty then some (.ok tree) else none
    | none => none

end SequentialBuilder

section ParallelBuilder

/-- Arithmetic fact behind the `split_off` in `reduce_full`: for
`2 ≤ len`, the left count `((len + 1) / 2).next_power_of_two()` is
positive and strictly below `len`, so both halves of the split are
nonempty and strictly smaller. -/
theorem left_len_lt_of_two_le {len : Nat} (h : 2 ≤ len) :
    0 < next_power_of_two ((len + 1) / 2) ∧
      next_power_of_two ((len + 1) / 2) < len := by
  unfold next_power_of_two
  rcases Nat.lt_or_ge len 3 with h3 | h3
  · have hlen : len = 2 := by omega
    subst hlen
    norm_num [Nat.clog_one_right]
  · have hm : 2 ≤ (len + 1) / 2 := by omega
    have hlt : 2 ^ (Nat.clog 2 ((len + 1) / 2) - 1) < (len + 1) / 2 :=
      Nat.pow_pred_clog_lt_self (by norm_num) (by omega)
    have hc : 0 < Nat.clog 2 ((len + 1) / 2) :=
      Nat.clog_pos (by norm_num) hm
    have hpow : 2 ^ Nat.clog 2 ((len + 1) / 2) =
        2 * 2 ^ (Nat.clog 2 ((len + 1) / 2) - 1) := by
      conv_lhs => rw [show Nat.clog 2 ((len + 1) / 2) =
        (Nat.clog 2 ((len + 1) / 2) - 1) + 1 by omega]
      rw [Nat.pow_succ]
      ring
    refine ⟨Nat.pos_pow_of_pos _ (by norm_num), ?_⟩
    omega

namespace Parallel

variable {In H T : Type}

/-- Rust `parallel::Builder::reduce_complete`: reduce one contiguous run of
already-built trees, splitting at `perfect_len / 2` exactly as the
sequential `extract_complete_tree` splits its input counts.  `rayon::join`
evaluates both closures, so the fork is modelled as plain evaluation.

The same two totality deviations as in `extract_complete_tree` apply:
`none` models the `debug_assert!(len != 0)` at entry, and the
`perfect_len = 0` arm inlines the assertion the recursive call with
`left_len = 0` would trip. -/
def reduce_complete (b : Builder In H T)
    (level_nodes : List (MerkleTree H T)) (perfect_len : Nat) :
    Option (MerkleTree H T) :=
  if h0 : level_nodes.length = 0 then none
  else
    if hch : level_nodes.length ≤ perfect_len / 2 then
      -- no right subtree on this node
      (reduce_complete b level_nodes (perfect_len / 2)).map b.chain_lone_child
    else if level_nodes.length = 1 then
      -- level_nodes.pop().unwrap() on a one-element vector
      level_nodes.getLast?
    else if hp : perfect_len = 0 then none
    else
      -- let right = level_nodes.split_off(left_len); let left = level_nodes
      (reduce_complete b (level_nodes.take (perfect_len / 2))
          (perfect_len / 2)).bind
        fun left_tree =>
          (reduce_complete b (level_nodes.drop (perfect_len / 2))
              (perfect_len / 2)).map
            fun right_tree => b.join left_tree right_tree
termination_by perfect_len
decreasing_by
  · omega
  · omega
  · omega

/-- Rust `parallel::Builder::complete_tree_from` (via
`complete_tree_from_iter`): map each input to a leaf tree in input order,
then `reduce_complete` at `perfect_len = leaves.len().
checked_next_power_of_two()`.  The `assert!(leaves.len() != 0)` is kept as
the inner length test. -/
def complete_tree_from (b : Builder In H T) (input : List In) :
    Option (Except EmptyTree (MerkleTree H T)) :=
  if input.length = 0 then some (.error .emptyTree)
  else
    let leaves := input.map b.make_leaf
    if leaves.length = 0 then none
    else
      match reduce_complete b leaves (next_power_of_two leaves.length) with
      | some tree => some (.ok tree)
      | none => none

/-- Rust `parallel::Builder::reduce_full`: split at
`left_len = (len.saturating_add(1) / 2).next_power_of_two()`; over `Nat`
the saturation never engages.  `none` models the
`debug_assert!(len != 0)`. -/
def reduce_full (b : Builder In H T)
    (level_nodes : List (MerkleTree H T)) : Option (MerkleTree H T) :=
  if h0 : level_nodes.length = 0 then none
  else if h1 : level_nodes.length = 1 then
    -- level_nodes.pop().unwrap() on a one-element vector
    level_nodes.getLast?
  else
    (reduce_full b
        (level_nodes.take
          (next_power_of_two ((level_nodes.length + 1) / 2)))).bind
      fun left_tree =>
        (reduce_full b
            (level_nodes.drop
              (next_power_of_two ((level_nodes.length + 1) / 2)))).map
          fun right_tree => b.join left_tree right_tree
termination_by level_nodes.length
decreasing_by
  · simp only [List.length_take]
    have := left_len_lt_of_two_le (show 2 ≤ level_nodes.length by omega)
    omega
  · simp only [List.length_drop]
    have := left_len_lt_of_two_le (show 2 ≤ level_nodes.length by omega)
    omega

/-- Rust `parallel::Builder::full_tree_from` (via `full_tree_from_iter`). -/
def full_tree_from (b : Builder In H T) (input : List In) :
    Option (Except EmptyTree (MerkleTree H T)) :=
  if input.length = 0 then some (.error .emptyTree)
  else
    let leaves := input.map b.make_leaf
    if leaves.length = 0 then none
    else
      match reduce_full b leaves with
      | some tree => some (.ok tree)
      | none => none

/-- Rust `parallel::Builder::collect_children_from` (via
`collect_children_from_iter` and `FromNodes::tree_from_nodes`): same node
collection as the sequential `collect_children_from`. -/
def collect_children_from (b : Builder In H T)
    (trees : List (MerkleTree H T)) : Except EmptyTree (MerkleTree H T) :=
  b.make_tree (trees.map MerkleTree.root)

end Parallel

end ParallelBuilder

section TreeObservations

variable {In H T : Type}

mutual

/-- In-order sequence of the (hash, data) pairs carried by the leaves of a
node, left to right. -/
def Node.leaves : Node H T → List (H × T)
  | .leaf h d => [(h, d)]
  | .internal _ cs => leavesList cs

/-- Concatenated `Node.leaves` of a list of nodes, left to right. -/
def leavesList : List (Node H T) → List (H × T)
  | [] => []
  | n :: ns => Node.leaves n ++ leavesList ns

end

mutual

/-- Every leaf under the node sits exactly `d` levels below it. -/
def Node.allLeavesAt : Node H T → Nat → Bool
  | .leaf _ _, d => d == 0
  | .internal _ _, 0 => false
  | .internal _ cs, d + 1 => allLeavesAtList cs d

/-- `Node.allLeavesAt` over each node of a list. -/
def allLeavesAtList : List (Node H T) → Nat → Bool
  | [], _ => true
  | n :: ns, d => Node.allLeavesAt n d && allLeavesAtList ns d

end

mutual

/-- Every internal node in the subtree has a nonempty child list; since
the tree is finite this means every internal node has at least one real
(materialized) leaf among its descendants, i.e. no node exists only for
the sake of phantom positions of the idealized complete tree. -/
def Node.noPhantomOnly : Node H T → Bool
  | .leaf _ _ => true
  | .internal _ cs => (!cs.isEmpty) && noPhantomOnlyList cs

/-- `Node.noPhantomOnly` over each node of a list. -/
def noPhantomOnlyList : List (Node H T) → Bool
  | [] => true
  | n :: ns => Node.noPhantomOnly n && noPhantomOnlyList ns

end

end TreeObservations

section Equality

variable {H T : Type} [DecidableEq H]

/-- Rust `PartialEq<LeafNode> for LeafNode`: compares only the hash values. -/
def LeafNode.beq (a b : LeafNode H T) : Bool :=
  decide (a.hash = b.hash)

/-- Rust `PartialEq<HashNode> for HashNode`: compares only the hash values. -/
def HashNode.beq (a b : HashNode H T) : Bool :=
  decide (a.hash = b.hash)

/-- Rust `PartialEq<Node> for Node`: delegates to the per-variant hash
comparisons, and is `false` across variants. -/
def Node.beq : Node H T → Node H T → Bool
  | .leaf h _, .leaf h' _ => decide (h = h')
  | .internal h _, .internal h' _ => decide (h = h')
  | _, _ => false

/-- Rust `PartialEq<LeafNode> for Node`. -/
def Node.beqLeafNode : Node H T → LeafNode H T → Bool
  | .leaf h _, ln => decide (h = ln.hash)
  | .internal _ _, _ => false

/-- Rust `PartialEq<HashNode> for Node`. -/
def Node.beqHashNode : Node H T → HashNode H T → Bool
  | .internal h _, hn => decide (h = hn.hash)
  | .leaf _ _, _ => false

/-- Rust `PartialEq<Node> for LeafNode`. -/
def LeafNode.beqNode (ln : LeafNode H T) : Node H T → Bool
  | .leaf h _ => decide (ln.hash = h)
  | .internal _ _ => false

/-- Rust `PartialEq<Node> for HashNode`. -/
def HashNode.beqNode (hn : HashNode H T) : Node H T → Bool
  | .internal h _ => decide (hn.hash = h)
  | .leaf _ _ => false

/-- Rust `PartialEq<MerkleTree> for MerkleTree`: compares the roots. -/
def MerkleTree.beq (a b : MerkleTree H T) : Bool :=
  Node.beq a.root b.root

/-- Rust `PartialEq<Node> for MerkleTree`. -/
def MerkleTree.beqNode (t : MerkleTree H T) (n : Node H T) : Bool :=
  Node.beq t.root n

end Equality

section StdHash

variable {H T : Type}

/-- Rust `impl Hash for MerkleTree`: the only data fed to the standard
hasher state is the root node's hash value. -/
def MerkleTree.stdHashFeed (t : MerkleTree H T) : H :=
  t.root.hash

/-- Rust `impl Hash for Node`: feeds exactly the node's hash value. -/
def Node.stdHashFeed (n : Node H T) : H :=
  n.hash

/-- Rust `impl Hash for LeafNode`: feeds exactly the node's hash value. -/
def LeafNode.stdHashFeed (ln : LeafNode H T) : H :=
  ln.hash

/-- Rust `impl Hash for HashNode`: feeds exactly the node's hash value. -/
def HashNode.stdHashFeed (hn : HashNode H T) : H :=
  hn.hash

end StdHash

section Iterators

variable {H T : Type}

/-- Rust `tree::Children`: a slice iterator over the child nodes; `elems`
is the remaining (not yet yielded) range. -/
structure Children (H T : Type) : Type where
  elems : List (Node H T)

/-- Rust `HashNode::children()`: a fresh iterator over all children. -/
def HashNode.childrenIter (hn : HashNode H T) : Children H T :=
  ⟨hn.children⟩

/-- Rust `ExactSizeIterator::len` for `Children`: the slice iterator's
remaining length. -/
def Children.len (c : Children H T) : Nat :=
  c.elems.length

/-- Rust `Iterator::next` for `Children`: yields from the front. -/
def Children.next : Children H T → Option (Node H T × Children H T)
  | ⟨[]⟩ => none
  | ⟨n :: rest⟩ => some (n, ⟨rest⟩)

/-- Rust `DoubleEndedIterator::next_back` for `Children`: yields from the
back. -/
def Children.next_back (c : Children H T) : Option (Node H T × Children H T) :=
  match c.elems.getLast? with
  | none => none
  | some n => some (n, ⟨c.elems.dropLast⟩)

/-- Rust `tree::NodeHashes`: hash-projection iterator over a node slice;
`hashes` models `nodes` through `DynHashSlice::hash_at` (element `i` is
`nodes[i].hash()`), with the `pos` and `len` fields copied verbatim. -/
structure NodeHashes (H : Type) : Type where
  hashes : List H
  pos : Nat
  len : Nat

/-- Rust `HashNode::child_hashes()`: fresh iterator with `pos = 0` and
`len` the child count. -/
def HashNode.child_hashes (hn : HashNode H T) : NodeHashes H :=
  ⟨hn.children.map Node.hash, 0, hn.children.length⟩

/-- Rust `Iterator::next` for `NodeHashes`: `none` once `pos` reaches
`len`, otherwise the hash at `pos`, advancing `pos`. -/
def NodeHashes.next (it : NodeHashes H) : Option (H × NodeHashes H) :=
  if it.pos = it.len then none
  else (it.hashes[it.pos]?).map fun h => (h, ⟨it.hashes, it.pos + 1, it.len⟩)

/-- Rust `DoubleEndedIterator::next_back` for `NodeHashes`, verbatim: if
`pos == 0` yield `none`, otherwise decrement `pos` and yield the hash at
the new `pos`. -/
def NodeHashes.next_back (it : NodeHashes H) : Option (H × NodeHashes H) :=
  if it.pos = 0 then none
  else (it.hashes[it.pos - 1]?).map fun h => (h, ⟨it.hashes, it.pos - 1, it.len⟩)

end Iterators

section DigestHashers

variable {In T : Type}

/-- Concatenation of the children's hash byte strings in order, as the
`for node in iter { digest.process(node.hash_bytes()) }` loop feeds them. -/
def childrenHashBytes : List (Node (List Nat) T) → List Nat
  | [] => []
  | c :: rest => c.hash ++ childrenHashBytes rest

namespace DefaultNodeHasher

/-- Rust `DefaultNodeHasher::hash_children`: one `1` byte, then the
concatenated child hashes, fed to the digest.  A streaming digest is
modelled as a function of the whole fed byte sequence; bytes are `Nat`. -/
def hash_children (digest : List Nat → List Nat)
    (children : List (Node (List Nat) T)) : List Nat :=
  digest (1 :: childrenHashBytes children)

end DefaultNodeHasher

namespace ByteDigestHasher

/-- Rust `ByteDigestHasher::hash_input`: one `0` byte, then the input
bytes, fed to the digest. -/
def hash_input (digest : List Nat → List Nat) (input : List Nat) : List Nat :=
  digest (0 :: input)

end ByteDigestHasher

namespace DigestHasher

/-- Rust `DigestHasher::hash_input`: one `0` byte, then the byte-order
aware serialization of the input (`input.hash(&mut digest)`), fed to the
digest. -/
def hash_input (digest : List Nat → List Nat) (inputBytes : In → List Nat)
    (input : In) : List Nat :=
  digest (0 :: inputBytes input)

end DigestHasher

end DigestHashers

section MockHasher

/-- Rust `testmocks::MockHasher::hash_nodes`: a leaf child contributes
`'>'` (byte 62) followed by its hash bytes; an internal child contributes
`"#("` (bytes 35, 40), its hash bytes, and `")"` (byte 41). -/
def mockHashNodes : List (Node (List Nat) Unit) → List Nat
  | [] => []
  | .leaf h _ :: rest => 62 :: (h ++ mockHashNodes rest)
  | .internal h _ :: rest => 35 :: 40 :: (h ++ 41 :: mockHashNodes rest)

/-- A `Builder` over the mock hasher (`hash_input` copies the input
bytes) with the `NoData` leaf extractor, as the crate's unit tests use. -/
def mockBuilder : Builder (List Nat) (List Nat) Unit :=
  ⟨fun input => input, mockHashNodes, fun _ => ()⟩

end MockHasher

section BuildLemmas

variable {In H T : Type}

theorem leavesList_append (xs ys : List (Node H T)) :
    leavesList (xs ++ ys) = leavesList xs ++ leavesList ys := by
  induction xs with
  | nil => simp [leavesList]
  | cons n ns ih => simp [leavesList, ih]

theorem allLeavesAtList_append (xs ys : List (Node H T)) (d : Nat) :
    allLeavesAtList (xs ++ ys) d =
      (allLeavesAtList xs d && allLeavesAtList ys d) := by
  induction xs with
  | nil => simp [allLeavesAtList]
  | cons n ns ih => simp [allLeavesAtList, ih, Bool.and_assoc]

theorem noPhantomOnlyList_append (xs ys : List (Node H T)) :
    noPhantomOnlyList (xs ++ ys) =
      (noPhantomOnlyList xs && noPhantomOnlyList ys) := by
  induction xs with
  | nil => simp [noPhantomOnlyList]
  | cons n ns ih => simp [noPhantomOnlyList, ih, Bool.and_assoc]

theorem leavesList_map_root_make_leaf (b : Builder In H T) (input : List In) :
    leavesList ((input.map b.make_leaf).map MerkleTree.root) =
      input.map (fun x => (b.hash_input x, b.extract_data x)) := by
  induction input with
  | nil => simp [leavesList]
  | cons x xs ih =>
    simp only [List.map_map] at ih
    simp [leavesList, Builder.make_leaf, Node.leaves, ih]

theorem allLeavesAtList_map_root_make_leaf (b : Builder In H T)
    (input : List In) :
    allLeavesAtList ((input.map b.make_leaf).map MerkleTree.root) 0 = true := by
  induction input with
  | nil => simp [allLeavesAtList]
  | cons x xs ih =>
    simp only [List.map_map] at ih
    simp [allLeavesAtList, Builder.make_leaf, Node.allLeavesAt, ih]

theorem noPhantomOnlyList_map_root_make_leaf (b : Builder In H T)
    (input : List In) :
    noPhantomOnlyList ((input.map b.make_leaf).map MerkleTree.root) = true := by
  induction input with
  | nil => simp [noPhantomOnlyList]
  | cons x xs ih =>
    simp only [List.map_map] at ih
    simp [noPhantomOnlyList, Builder.make_leaf, Node.noPhantomOnly, ih]

/-- Main invariant of the parallel complete reduction: over a nonempty
run of at most `2 ^ k` trees, `reduce_complete` at `perfect_len = 2 ^ k`
succeeds, concatenates the runs' leaves in order, lifts uniform leaf
depth `d` of the inputs to uniform depth `k + d`, and preserves the
no-phantom-only-descendants property. -/
theorem reduce_complete_spec (b : Builder In H T) :
    ∀ (k : Nat) (ts : List (MerkleTree H T)), ts ≠ [] → ts.length ≤ 2 ^ k →
    ∃ t, Parallel.reduce_complete b ts (2 ^ k) = some t ∧
      Node.leaves t.root = leavesList (ts.map MerkleTree.root) ∧
      (∀ d, allLeavesAtList (ts.map MerkleTree.root) d = true →
        Node.allLeavesAt t.root (k + d) = true) ∧
      (noPhantomOnlyList (ts.map MerkleTree.root) = true →
        Node.noPhantomOnly t.root = true) := by
  intro k
  induction k with
  | zero =>
    intro ts hne hlen
    obtain ⟨t, rfl⟩ : ∃ t, ts = [t] := by
      cases ts with
      | nil => exact absurd rfl hne
      | cons a l =>
        cases l with
        | nil => exact ⟨a, rfl⟩
        | cons c l2 => simp at hlen
    refine ⟨t, ?_, ?_, ?_, ?_⟩
    · unfold Parallel.reduce_complete
      norm_num
    · simp [leavesList]
    · intro d hd
      simp only [List.map_cons, List.map_nil, allLeavesAtList,
        Bool.and_true] at hd
      simpa using hd
    · intro hp
      simp only [List.map_cons, List.map_nil, noPhantomOnlyList,
        Bool.and_true] at hp
      exact hp
  | succ k ih =>
    intro ts hne hlen
    have hne' : ts.length ≠ 0 := by simpa [List.length_eq_zero] using hne
    have hk : 0 < 2 ^ k := Nat.pos_pow_of_pos _ (by norm_num)
    have hpow : 2 ^ (k + 1) / 2 = 2 ^ k := by
      rw [Nat.pow_succ]; omega
    by_cases hsmall : ts.length ≤ 2 ^ k
    · obtain ⟨t, ht, hleaves, hdepth, hph⟩ := ih ts hne hsmall
      refine ⟨b.chain_lone_child t, ?_, ?_, ?_, ?_⟩
      · unfold Parallel.reduce_complete
        rw [dif_neg hne', dif_pos (by rw [hpow]; exact hsmall)]
        rw [hpow, ht]
        rfl
      · simp [Builder.chain_lone_child, Builder.make_tree_unchecked,
          Node.leaves, leavesList, hleaves]
      · intro d hd
        have harith : k + 1 + d = (k + d) + 1 := by omega
        rw [harith]
        simp only [Builder.chain_lone_child, Builder.make_tree_unchecked,
          Node.allLeavesAt, allLeavesAtList, Bool.and_true]
        exact hdepth d hd
      · intro hp
        simp only [Builder.chain_lone_child, Builder.make_tree_unchecked,
          Node.noPhantomOnly, noPhantomOnlyList, List.isEmpty,
          Bool.not_false, Bool.true_and, Bool.and_true]
        exact hph hp
    · push_neg at hsmall
      have h2len : 2 ^ (k + 1) = 2 ^ k * 2 := Nat.pow_succ 2 k
      have htake_len : (ts.take (2 ^ k)).length = 2 ^ k := by
        simp only [List.length_take]; omega
      have hdrop_len : (ts.drop (2 ^ k)).length = ts.length - 2 ^ k := by
        simp
      have hsplit : ts.map MerkleTree.root =
          (ts.take (2 ^ k)).map MerkleTree.root ++
            (ts.drop (2 ^ k)).map MerkleTree.root := by
        rw [← List.map_append, List.take_append_drop]
      obtain ⟨l, hl, hlleaves, hldepth, hlph⟩ :=
        ih (ts.take (2 ^ k))
          (List.ne_nil_of_length_pos (by rw [htake_len]; omega))
          (by rw [htake_len])
      obtain ⟨r, hr, hrleaves, hrdepth, hrph⟩ :=
        ih (ts.drop (2 ^ k))
          (List.ne_nil_of_length_pos (by rw [hdrop_len]; omega))
          (by rw [hdrop_len]; omega)
      refine ⟨b.join l r, ?_, ?_, ?_, ?_⟩
      · unfold Parallel.reduce_complete
        have hbig : 0 < 2 ^ (k + 1) := Nat.pos_pow_of_pos _ (by norm_num)
        rw [dif_neg hne', dif_neg (by rw [hpow]; omega),
          if_neg (by omega), dif_neg (by omega)]
        rw [hpow, hl, hr]
        rfl
      · rw [hsplit, leavesList_append]
        simp [Builder.join, Builder.make_tree_unchecked, Node.leaves,
          leavesList, hlleaves, hrleaves]
      · intro d hd
        rw [hsplit, allLeavesAtList_append, Bool.and_eq_true] at hd
        have harith : k + 1 + d = (k + d) + 1 := by omega
        rw [harith]
        simp only [Builder.join, Builder.make_tree_unchecked,
          Node.allLeavesAt, allLeavesAtList, Bool.and_true,
          Bool.and_eq_true]
        exact ⟨hldepth d hd.1, hrdepth d hd.2⟩
      · intro hp
        rw [hsplit, noPhantomOnlyList_append, Bool.and_eq_true] at hp
        simp only [Builder.join, Builder.make_tree_unchecked,
          Node.noPhantomOnly, noPhantomOnlyList, List.isEmpty,
          Bool.not_false, Bool.true_and, Bool.and_true, Bool.and_eq_true]
        exact ⟨hlph hp.1, hrph hp.2⟩

end BuildLemmas

section CorrespondenceLemmas

variable {In H T : Type}

/-- Correspondence between the sequential and the parallel complete
builds: whenever the parallel reduction of the leaves made from the next
`len` inputs yields a tree, the sequential `extract_complete_tree`
consumes exactly those `len` inputs and yields the identical tree. -/
theorem extract_complete_tree_spec (b : Builder In H T) :
    ∀ (k : Nat) (iter : List In) (len : Nat), len ≠ 0 → len ≤ 2 ^ k →
    len ≤ iter.length →
    ∀ t, Parallel.reduce_complete b ((iter.take len).map b.make_leaf)
      (2 ^ k) = some t →
    extract_complete_tree b iter len (2 ^ k) = some (t, iter.drop len) := by
  intro k
  induction k with
  | zero =>
    intro iter len h0 hle hlen t hred
    have hlen1 : len = 1 := by omega
    subst hlen1
    cases iter with
    | nil => simp at hlen
    | cons x rest =>
      have hsh : (List.take 1 (x :: rest)).map b.make_leaf =
          [b.make_leaf x] := by simp
      rw [hsh] at hred
      unfold Parallel.reduce_complete at hred
      norm_num at hred
      unfold extract_complete_tree
      norm_num [hred]
  | succ k ih =>
    intro iter len h0 hle hlen t hred
    have hk : 0 < 2 ^ k := Nat.pos_pow_of_pos _ (by norm_num)
    have hbig : 0 < 2 ^ (k + 1) := Nat.pos_pow_of_pos _ (by norm_num)
    have hpow : 2 ^ (k + 1) / 2 = 2 ^ k := by rw [Nat.pow_succ]; omega
    have hts_len : ((iter.take len).map b.make_leaf).length = len := by
      simp only [List.length_map, List.length_take]; omega
    by_cases hsmall : len ≤ 2 ^ k
    · unfold Parallel.reduce_complete at hred
      rw [dif_neg (by rw [hts_len]; exact h0),
        dif_pos (by rw [hts_len, hpow]; exact hsmall), hpow] at hred
      cases ho : Parallel.reduce_complete b
          ((iter.take len).map b.make_leaf) (2 ^ k) with
      | none => rw [ho] at hred; simp at hred
      | some t' =>
        rw [ho] at hred
        simp only [Option.map_some'] at hred
        rw [Option.some.injEq] at hred
        unfold extract_complete_tree
        rw [dif_neg h0, dif_pos (by rw [hpow]; exact hsmall), hpow,
          ih iter len h0 hsmall hlen t' ho]
        simp [hred]
    · push_neg at hsmall
      have htake_take : ((iter.take len).map b.make_leaf).take (2 ^ k) =
          (iter.take (2 ^ k)).map b.make_leaf := by
        rw [← List.map_take, List.take_take,
          Nat.min_eq_left (le_of_lt hsmall)]
      have hdrop_take : ((iter.take len).map b.make_leaf).drop (2 ^ k) =
          ((iter.drop (2 ^ k)).take (len - 2 ^ k)).map b.make_leaf := by
        rw [← List.map_drop, List.drop_take]
      unfold Parallel.reduce_complete at hred
      rw [dif_neg (by rw [hts_len]; exact h0),
        dif_neg (by rw [hts_len, hpow]; omega),
        if_neg (by rw [hts_len]; omega),
        dif_neg (by omega), hpow, htake_take, hdrop_take] at hred
      cases hol : Parallel.reduce_complete b
          ((iter.take (2 ^ k)).map b.make_leaf) (2 ^ k) with
      | none => rw [hol] at hred; simp at hred
      | some l =>
        rw [hol] at hred
        cases hor : Parallel.reduce_complete b
            (((iter.drop (2 ^ k)).take (len - 2 ^ k)).map b.make_leaf)
            (2 ^ k) with
        | none => rw [hor] at hred; simp at hred
        | some r =>
          rw [hor] at hred
          simp only [Option.some_bind, Option.map_some'] at hred
          rw [Option.some.injEq] at hred
          have hextl := ih iter (2 ^ k) (by omega) (le_refl _) (by omega)
            l hol
          have hextr := ih (iter.drop (2 ^ k)) (len - 2 ^ k) (by omega)
            (by omega) (by simp only [List.length_drop]; omega) r hor
          unfold extract_complete_tree
          rw [dif_neg h0, dif_neg (by rw [hpow]; omega),
            if_neg (by omega), dif_neg (by omega), hpow, hextl]
          simp only [Option.some_bind]
          rw [hextr]
          simp only [Option.map_some', Option.some.injEq, Prod.mk.injEq]
          refine ⟨hred, ?_⟩
          rw [List.drop_drop]
          congr 1
          omega

/-- Main invariant of the parallel full reduction: over any nonempty run
of trees, `reduce_full` succeeds and concatenates the run's leaves in
order. -/
theorem reduce_full_spec (b : Builder In H T) :
    ∀ (n : Nat) (ts : List (MerkleTree H T)), ts.length = n → ts ≠ [] →
    ∃ t, Parallel.reduce_full b ts = some t ∧
      Node.leaves t.root = leavesList (ts.map MerkleTree.root) := by
  intro n
  induction n using Nat.strong_induction_on with
  | _ n ih =>
    intro ts hn hne
    have hne' : ts.length ≠ 0 := by simpa [List.length_eq_zero] using hne
    by_cases h1 : ts.length = 1
    · obtain ⟨t, rfl⟩ : ∃ t, ts = [t] := by
        cases ts with
        | nil => exact absurd rfl hne
        | cons a l =>
          cases l with
          | nil => exact ⟨a, rfl⟩
          | cons c l2 => simp at h1
      refine ⟨t, ?_, by simp [leavesList]⟩
      unfold Parallel.reduce_full
      norm_num
    · have h2 : 2 ≤ ts.length := by omega
      obtain ⟨hLpos, hLlt⟩ := left_len_lt_of_two_le h2
      have htl : (ts.take (next_power_of_two ((ts.length + 1) / 2))).length =
          next_power_of_two ((ts.length + 1) / 2) := by
        simp only [List.length_take]; omega
      have hdl : (ts.drop (next_power_of_two ((ts.length + 1) / 2))).length =
          ts.length - next_power_of_two ((ts.length + 1) / 2) := by
        simp
      obtain ⟨l, hl, hlleaves⟩ :=
        ih (ts.take (next_power_of_two ((ts.length + 1) / 2))).length
          (by rw [htl]; omega)
          (ts.take (next_power_of_two ((ts.length + 1) / 2))) rfl
          (List.ne_nil_of_length_pos (by rw [htl]; omega))
      obtain ⟨r, hr, hrleaves⟩ :=
        ih (ts.drop (next_power_of_two ((ts.length + 1) / 2))).length
          (by rw [hdl]; omega)
          (ts.drop (next_power_of_two ((ts.length + 1) / 2))) rfl
          (List.ne_nil_of_length_pos (by rw [hdl]; omega))
      refine ⟨b.join l r, ?_, ?_⟩
      · unfold Parallel.reduce_full
        rw [dif_neg hne', dif_neg h1, hl, hr]
        rfl
      · have hsplit : ts.map MerkleTree.root =
            (ts.take (next_power_of_two ((ts.length + 1) / 2))).map
              MerkleTree.root ++
            (ts.drop (next_power_of_two ((ts.length + 1) / 2))).map
              MerkleTree.root := by
          rw [← List.map_append, List.take_append_drop]
        rw [hsplit, leavesList_append]
        simp [Builder.join, Builder.make_tree_unchecked, Node.leaves,
          leavesList, hlleaves, hrleaves]

end CorrespondenceLemmas

section TopLevelLemmas

variable {In H T : Type}

/-- Top-level success of the complete builds on nonempty input: both
entry points return the same tree, whose leaves list the inputs in order,
whose leaf depth is uniformly the ceiling base-2 logarithm of the length,
and which has no internal node without real descendants. -/
theorem complete_build_ok (b : Builder In H T) (input : List In)
    (hne : input ≠ []) :
    ∃ t, b.complete_tree_from input = some (.ok t) ∧
      Parallel.complete_tree_from b input = some (.ok t) ∧
      Node.leaves t.root =
        input.map (fun x => (b.hash_input x, b.extract_data x)) ∧
      Node.allLeavesAt t.root (Nat.clog 2 input.length) = true ∧
      Node.noPhantomOnly t.root = true := by
  have hempty : input.length ≠ 0 := by
    simpa [List.length_eq_zero] using hne
  have hle : input.length ≤ 2 ^ Nat.clog 2 input.length :=
    Nat.le_pow_clog (by norm_num) _
  obtain ⟨t, hred, hleaves, hdepth, hph⟩ :=
    reduce_complete_spec b (Nat.clog 2 input.length)
      (input.map b.make_leaf) (by simpa using hne) (by simpa using hle)
  have htk : (input.take input.length).map b.make_leaf =
      input.map b.make_leaf := by
    rw [List.take_length]
  have hext := extract_complete_tree_spec b (Nat.clog 2 input.length) input
    input.length hempty hle (le_refl _) t (by rw [htk]; exact hred)
  refine ⟨t, ?_, ?_, ?_, ?_, ?_⟩
  · unfold Builder.complete_tree_from
    rw [if_neg hempty]
    simp only [next_power_of_two]
    rw [hext]
    simp [List.drop_length]
  · unfold Parallel.complete_tree_from
    rw [if_neg hempty, if_neg (by simpa using hempty)]
    simp only [next_power_of_two, List.length_map]
    rw [hred]
  · rw [hleaves, leavesList_map_root_make_leaf]
  · have := hdepth 0 (allLeavesAtList_map_root_make_leaf b input)
    simpa using this
  · exact hph (noPhantomOnlyList_map_root_make_leaf b input)

/-- Top-level success of the parallel full build on nonempty input, with
leaves in input order. -/
theorem full_build_ok (b : Builder In H T) (input : List In)
    (hne : input ≠ []) :
    ∃ t, Parallel.full_tree_from b input = some (.ok t) ∧
      Node.leaves t.root =
        input.map (fun x => (b.hash_input x, b.extract_data x)) := by
  have hempty : input.length ≠ 0 := by
    simpa [List.length_eq_zero] using hne
  obtain ⟨t, hred, hleaves⟩ :=
    reduce_full_spec b (input.map b.make_leaf).length (input.map b.make_leaf)
      rfl (by simpa using hne)
  refine ⟨t, ?_, ?_⟩
  · unfold Parallel.full_tree_from
    rw [if_neg hempty, if_neg (by simpa using hempty)]
    rw [hred]
  · rw [hleaves, leavesList_map_root_make_leaf]

end TopLevelLemmas

section ClaimTheorems

theorem clog_two_three : Nat.clog 2 3 = 2 := by
  have h2 : Nat.clog 2 2 = 1 := by
    rw [Nat.clog_of_two_le (by norm_num) (by norm_num)]
    norm_num [Nat.clog_one_right]
  rw [Nat.clog_of_two_le (by norm_num) (by norm_num)]
  norm_num [h2]

/-- C1: for every input sequence and every hasher/leaf-data-policy pair,
the parallel builder's complete_tree_from produces a tree that is
structurally and hash-identical, node for node, to the tree produced by
the sequential builder's complete_tree_from on the same input, and the
two fail (with EmptyTree) on exactly the same inputs.  Stated as equality
of the two build functions at every input, over an arbitrary `Builder`
(arbitrary hasher and leaf data extractor). -/
theorem spec_C1_parallel_sequential_equivalence {In H T : Type}
    (b : Builder In H T) (input : List In) :
    b.complete_tree_from input = Parallel.complete_tree_from b input := by
  by_cases hne : input = []
  · subst hne
    rfl
  · obtain ⟨t, h1, h2, -, -, -⟩ := complete_build_ok b input hne
    rw [h1, h2]

/-- C2: for every nonempty input of length n the sequential complete
build succeeds with a tree in which every leaf is at the same depth
⌈log2 n⌉ (`Nat.clog 2 n`) and no internal node has only phantom
descendants (`Node.noPhantomOnly`: every internal node keeps a nonempty
materialized child list, hence real leaf descendants); when
`len ≤ leftLen` with `leftLen = perfectLen / 2` there is no right
subtree and the recursive result is wrapped in a single-child chain
node; and for a 3-element input `[a1, a2, a3]` the root is
`Internal([Internal([Leaf a1, Leaf a2]), Internal([Leaf a3])])`,
expressed through `join` and `chain_lone_child`. -/
theorem spec_C2_complete_tree_shape {In H T : Type} (b : Builder In H T) :
    (∀ input : List In, input ≠ [] →
      ∃ t, b.complete_tree_from input = some (.ok t) ∧
        Node.allLeavesAt t.root (Nat.clog 2 input.length) = true ∧
        Node.noPhantomOnly t.root = true) ∧
    (∀ (iter : List In) (len pl : Nat), 1 ≤ len → len ≤ pl / 2 →
      extract_complete_tree b iter len pl =
        (extract_complete_tree b iter len (pl / 2)).map
          fun p => (b.chain_lone_child p.1, p.2)) ∧
    (∀ a1 a2 a3 : In, b.complete_tree_from [a1, a2, a3] =
      some (.ok (b.join (b.join (b.make_leaf a1) (b.make_leaf a2))
        (b.chain_lone_child (b.make_leaf a3))))) := by
  refine ⟨?_, ?_, ?_⟩
  · intro input hne
    obtain ⟨t, h1, -, h3, h4, h5⟩ := complete_build_ok b input hne
    exact ⟨t, h1, h4, h5⟩
  · intro iter len pl h1 h2
    conv_lhs => rw [extract_complete_tree]
    rw [dif_neg (by omega), dif_pos h2]
  · intro a1 a2 a3
    unfold Builder.complete_tree_from
    norm_num [next_power_of_two, clog_two_three]
    unfold extract_complete_tree
    norm_num
    unfold extract_complete_tree
    norm_num
    unfold extract_complete_tree
    norm_num

/-- Witness for C2 at the mock builder: the three-input build `[[1], [2],
[3]]` succeeds with all leaves at depth `Nat.clog 2 3` and no
phantom-only internal node, and the chain branch fires at
`len = 1 ≤ 2 / 2`. -/
theorem spec_C2_witness :
    (∃ t, mockBuilder.complete_tree_from [[1], [2], [3]] = some (.ok t) ∧
      Node.allLeavesAt t.root (Nat.clog 2 ([[1], [2], [3]] :
        List (List Nat)).length) = true ∧
      Node.noPhantomOnly t.root = true) ∧
    extract_complete_tree mockBuilder [[5]] 1 2 =
      (extract_complete_tree mockBuilder [[5]] 1 1).map
        (fun p => (mockBuilder.chain_lone_child p.1, p.2)) :=
  ⟨(spec_C2_complete_tree_shape mockBuilder).1 [[1], [2], [3]] (by decide),
   (spec_C2_complete_tree_shape mockBuilder).2.1 [[5]] 1 2 (by decide)
     (by decide)⟩

/-- C3: for every single-element input, the root of the tree returned by
the sequential complete build, the parallel complete build and the
parallel full build is the bare leaf node, never an internal node
wrapping one child. -/
theorem spec_C3_singleton_identity {In H T : Type} (b : Builder In H T)
    (x : In) :
    b.complete_tree_from [x] = some (.ok (b.make_leaf x)) ∧
    Parallel.complete_tree_from b [x] = some (.ok (b.make_leaf x)) ∧
    Parallel.full_tree_from b [x] = some (.ok (b.make_leaf x)) ∧
    (b.make_leaf x).root = Node.leaf (b.hash_input x) (b.extract_data x) := by
  refine ⟨?_, ?_, ?_, rfl⟩
  · unfold Builder.complete_tree_from
    norm_num [next_power_of_two, Nat.clog_one_right]
    unfold extract_complete_tree
    norm_num
  · unfold Parallel.complete_tree_from
    norm_num [next_power_of_two, Nat.clog_one_right]
    unfold Parallel.reduce_complete
    norm_num
  · unfold Parallel.full_tree_from
    norm_num
    unfold Parallel.reduce_full
    norm_num

/-- Counterexample to C4: collecting children from the one-element
sequence `[make_leaf [7]]` does not return that leaf tree verbatim — the
code wraps it in a fresh single-child internal root with a newly
computed `hash_children` hash. -/
theorem spec_C4_counterexample :
    mockBuilder.collect_children_from [mockBuilder.make_leaf [7]] ≠
      Except.ok (mockBuilder.make_leaf [7]) := by
  intro hcontra
  simp [mockBuilder, Builder.collect_children_from, Builder.make_tree,
    Builder.make_tree_unchecked, Builder.make_leaf, mockHashNodes]
    at hcontra

/-- C4 as amended: finalizing a one-element node list through
`collect_children_from` (sequential or parallel) always wraps the node
as the single child of a new internal root whose hash is computed by
`hash_children`; the node-becomes-root-verbatim behaviour belongs to the
bulk reductions' base case, where a single tree is popped unchanged. -/
theorem spec_C4_single_node_finalization {In H T : Type}
    (b : Builder In H T) (t : MerkleTree H T) :
    b.collect_children_from [t] = .ok (b.make_tree_unchecked [t.root]) ∧
    Parallel.collect_children_from b [t] =
      .ok (b.make_tree_unchecked [t.root]) ∧
    (b.make_tree_unchecked [t.root]).root =
      Node.internal (b.hash_children [t.root]) [t.root] ∧
    Parallel.reduce_complete b [t] 1 = some t ∧
    Parallel.reduce_full b [t] = some t := by
  refine ⟨rfl, rfl, rfl, ?_, ?_⟩
  · unfold Parallel.reduce_complete
    norm_num
  · unfold Parallel.reduce_full
    norm_num

/-- C5: every build entry point reports `EmptyTree` exactly on empty
input and succeeds with a tree on every nonempty input:
`complete_tree_from` (sequential and parallel), `full_tree_from`
(parallel) and `collect_children_from`.  The pure embedding returns
either the typed error or the finished tree, so no partial tree is
observable on the error path. -/
theorem spec_C5_empty_tree_errors {In H T : Type} (b : Builder In H T)
    (input : List In) (ts : List (MerkleTree H T)) :
    (b.complete_tree_from input = some (.error .emptyTree) ↔ input = []) ∧
    (input ≠ [] → ∃ t, b.complete_tree_from input = some (.ok t)) ∧
    (Parallel.complete_tree_from b input = some (.error .emptyTree) ↔
      input = []) ∧
    (input ≠ [] → ∃ t, Parallel.complete_tree_from b input = some (.ok t)) ∧
    (Parallel.full_tree_from b input = some (.error .emptyTree) ↔
      input = []) ∧
    (input ≠ [] → ∃ t, Parallel.full_tree_from b input = some (.ok t)) ∧
    (b.collect_children_from ts = .error .emptyTree ↔ ts = []) ∧
    (ts ≠ [] → ∃ t, b.collect_children_from ts = .ok t) := by
  have hseq : input ≠ [] →
      ∃ t, b.complete_tree_from input = some (.ok t) :=
    fun hne => (complete_build_ok b input hne).elim fun t ht => ⟨t, ht.1⟩
  have hpar : input ≠ [] →
      ∃ t, Parallel.complete_tree_from b input = some (.ok t) :=
    fun hne => (complete_build_ok b input hne).elim fun t ht => ⟨t, ht.2.1⟩
  have hfull : input ≠ [] →
      ∃ t, Parallel.full_tree_from b input = some (.ok t) :=
    fun hne => (full_build_ok b input hne).elim fun t ht => ⟨t, ht.1⟩
  have hcol : ts ≠ [] → b.collect_children_from ts =
      .ok (b.make_tree_unchecked (ts.map MerkleTree.root)) := by
    intro hne
    unfold Builder.collect_children_from Builder.make_tree
    rw [if_neg (by simpa using hne)]
  refine ⟨⟨?_, ?_⟩, hseq, ⟨?_, ?_⟩, hpar, ⟨?_, ?_⟩, hfull, ⟨?_, ?_⟩, ?_⟩
  · intro h
    by_contra hne
    obtain ⟨t, ht⟩ := hseq hne
    rw [ht] at h
    simp at h
  · intro h
    subst h
    rfl
  · intro h
    by_contra hne
    obtain ⟨t, ht⟩ := hpar hne
    rw [ht] at h
    simp at h
  · intro h
    subst h
    rfl
  · intro h
    by_contra hne
    obtain ⟨t, ht⟩ := hfull hne
    rw [ht] at h
    simp at h
  · intro h
    subst h
    rfl
  · intro h
    by_contra hne
    rw [hcol hne] at h
    simp at h
  · intro h
    subst h
    rfl
  · intro hne
    exact ⟨b.make_tree_unchecked (ts.map MerkleTree.root), hcol hne⟩

/-- Witness for C5 at the mock builder: the empty input errors, the
one-element builds succeed, and collecting one child tree succeeds. -/
theorem spec_C5_witness :
    mockBuilder.complete_tree_from [] = some (.error .emptyTree) ∧
    (∃ t, mockBuilder.complete_tree_from [[1]] = some (.ok t)) ∧
    (∃ t, Parallel.complete_tree_from mockBuilder [[1]] = some (.ok t)) ∧
    (∃ t, Parallel.full_tree_from mockBuilder [[1]] = some (.ok t)) ∧
    (∃ t, mockBuilder.collect_children_from
      [mockBuilder.make_leaf [2]] = .ok t) := by
  refine ⟨?_, ?_, ?_, ?_, ?_⟩
  · exact (spec_C5_empty_tree_errors mockBuilder [] []).1.mpr rfl
  · exact (spec_C5_empty_tree_errors mockBuilder [[1]] []).2.1 (by decide)
  · exact (spec_C5_empty_tree_errors mockBuilder [[1]] []).2.2.2.1
      (by decide)
  · exact (spec_C5_empty_tree_errors mockBuilder [[1]] []).2.2.2.2.2.1
      (by decide)
  · exact (spec_C5_empty_tree_errors mockBuilder []
      [mockBuilder.make_leaf [2]]).2.2.2.2.2.2.2 (List.cons_ne_nil _ _)

end ClaimTheorems

section ClaimTheoremsTwo

/-- Counterexample to C6: in `DefaultNodeHasher::hash_children` there is
no 0/1 marker byte per child node.  A leaf child and an internal child
are distinct nodes, yet when they carry the same hash bytes the parent
hash is computed over the identical digest input (only the outer `1`
byte plus the concatenated child hashes), so nothing distinguishes the
child variants. -/
theorem spec_C6_counterexample :
    Node.leaf ([5] : List Nat) () ≠ Node.internal [5] [] ∧
    DefaultNodeHasher.hash_children id
        [(Node.leaf ([5] : List Nat) () : Node (List Nat) Unit)] =
      DefaultNodeHasher.hash_children id
        [(Node.internal ([5] : List Nat) [] : Node (List Nat) Unit)] := by
  constructor
  · intro h
    exact Node.noConfusion h
  · rfl

/-- C6 as amended: in the reference digest hashers the hash of a leaf is
the digest of a `0` byte followed by the input bytes, and the hash of an
internal node is the digest of a single outer `1` byte followed by the
concatenation of the children's hash bytes, with no per-child marker:
the parent hash depends only on the concatenated child hash bytes, and
the `0`/`1` outer prefixes domain-separate leaf hashing from internal
hashing under any injective digest. -/
theorem spec_C6_digest_domain_separation {In T : Type} :
    (∀ (digest : List Nat → List Nat) (input : List Nat),
      ByteDigestHasher.hash_input digest input = digest (0 :: input)) ∧
    (∀ (digest : List Nat → List Nat) (inputBytes : In → List Nat) (x : In),
      DigestHasher.hash_input digest inputBytes x =
        digest (0 :: inputBytes x)) ∧
    (∀ (digest : List Nat → List Nat) (cs : List (Node (List Nat) T)),
      DefaultNodeHasher.hash_children digest cs =
        digest (1 :: childrenHashBytes cs)) ∧
    (∀ (digest : List Nat → List Nat) (cs cs' : List (Node (List Nat) T)),
      childrenHashBytes cs = childrenHashBytes cs' →
      DefaultNodeHasher.hash_children digest cs =
        DefaultNodeHasher.hash_children digest cs') ∧
    (∀ digest : List Nat → List Nat, Function.Injective digest →
      ∀ (input : List Nat) (cs : List (Node (List Nat) T)),
      ByteDigestHasher.hash_input digest input ≠
        DefaultNodeHasher.hash_children digest cs) := by
  refine ⟨fun _ _ => rfl, fun _ _ _ => rfl, fun _ _ => rfl, ?_, ?_⟩
  · intro digest cs cs' h
    unfold DefaultNodeHasher.hash_children
    rw [h]
  · intro digest hinj input cs h
    have h01 : (0 : Nat) :: input = 1 :: childrenHashBytes cs := hinj h
    simp at h01

/-- Witness for C6 at the identity digest: the child-variant-insensitive
equation holds on a leaf child versus an internal child with equal hash
bytes, and injectivity of the identity digest separates a leaf hash from
every internal hash. -/
theorem spec_C6_witness :
    DefaultNodeHasher.hash_children id
        [(Node.leaf ([5] : List Nat) () : Node (List Nat) Unit)] =
      DefaultNodeHasher.hash_children id
        [(Node.internal ([5] : List Nat) [] : Node (List Nat) Unit)] ∧
    ByteDigestHasher.hash_input id [9] ≠
      DefaultNodeHasher.hash_children id
        ([] : List (Node (List Nat) Unit)) := by
  constructor
  · exact (@spec_C6_digest_domain_separation Nat Unit).2.2.2.1 id
      [Node.leaf [5] ()] [Node.internal [5] []] rfl
  · exact (@spec_C6_digest_domain_separation Nat Unit).2.2.2.2 id
      (fun _ _ h => h) [9] []

/-- C7: for every input of length at least 2, the sequential complete
build, the parallel complete build and the parallel full build all
succeed, and the left-to-right in-order sequence of leaves carries
exactly the leaf hashes and leaf data of the input elements in their
original input order. -/
theorem spec_C7_order_preservation {In H T : Type} (b : Builder In H T)
    (input : List In) (hlen : 2 ≤ input.length) :
    (∃ t, b.complete_tree_from input = some (.ok t) ∧
      Node.leaves t.root =
        input.map fun x => (b.hash_input x, b.extract_data x)) ∧
    (∃ t, Parallel.complete_tree_from b input = some (.ok t) ∧
      Node.leaves t.root =
        input.map fun x => (b.hash_input x, b.extract_data x)) ∧
    (∃ t, Parallel.full_tree_from b input = some (.ok t) ∧
      Node.leaves t.root =
        input.map fun x => (b.hash_input x, b.extract_data x)) := by
  have hne : input ≠ [] := by
    intro h
    rw [h] at hlen
    simp at hlen
  obtain ⟨t, h1, h2, h3, -, -⟩ := complete_build_ok b input hne
  obtain ⟨t', h4, h5⟩ := full_build_ok b input hne
  exact ⟨⟨t, h1, h3⟩, ⟨t, h2, h3⟩, ⟨t', h4, h5⟩⟩

/-- Witness for C7 at the mock builder over the three-element input. -/
theorem spec_C7_witness :
    (∃ t, mockBuilder.complete_tree_from [[1], [2], [3]] = some (.ok t) ∧
      Node.leaves t.root = [[1], [2], [3]].map
        fun x => (mockBuilder.hash_input x, mockBuilder.extract_data x)) ∧
    (∃ t, Parallel.complete_tree_from mockBuilder [[1], [2], [3]] =
        some (.ok t) ∧
      Node.leaves t.root = [[1], [2], [3]].map
        fun x => (mockBuilder.hash_input x, mockBuilder.extract_data x)) ∧
    (∃ t, Parallel.full_tree_from mockBuilder [[1], [2], [3]] =
        some (.ok t) ∧
      Node.leaves t.root = [[1], [2], [3]].map
        fun x => (mockBuilder.hash_input x, mockBuilder.extract_data x)) :=
  spec_C7_order_preservation mockBuilder [[1], [2], [3]] (by decide)

/-- Counterexample to C8: a leaf-rooted tree and an internal-rooted tree
with identical root hash values (and identical standard-hash feeds) do
not compare equal, so equality is not determined by the hash value
alone. -/
theorem spec_C8_counterexample :
    (MerkleTree.mk (Node.leaf (0 : Nat) (0 : Nat))).stdHashFeed =
      (MerkleTree.mk (Node.internal 0 [Node.leaf 0 0])).stdHashFeed ∧
    MerkleTree.beq (MerkleTree.mk (Node.leaf (0 : Nat) (0 : Nat)))
      (MerkleTree.mk (Node.internal 0 [Node.leaf 0 0])) = false :=
  ⟨rfl, rfl⟩

/-- C8 as amended: within the same node variant, equality of
`MerkleTree`, `Node`, `LeafNode` and `HashNode` values is determined
solely by the stored hash value — leaf data payloads and child structure
are ignored, unequal hashes compare unequal — and the standard-library
hash impls feed exactly the node hash to the hasher state; across the
two variants, equality is `false` even for equal hashes. -/
theorem spec_C8_hash_only_equality {H T : Type} [DecidableEq H] :
    (∀ (h : H) (d d' : T), LeafNode.beq ⟨h, d⟩ ⟨h, d'⟩ = true) ∧
    (∀ (h : H) (cs cs' : List (Node H T)),
      HashNode.beq ⟨h, cs⟩ ⟨h, cs'⟩ = true) ∧
    (∀ (h h' : H) (d d' : T),
      Node.beq (.leaf h d) (.leaf h' d') = decide (h = h')) ∧
    (∀ (h h' : H) (cs cs' : List (Node H T)),
      Node.beq (.internal h cs) (.internal h' cs') = decide (h = h')) ∧
    (∀ a b : Node H T, a.hash ≠ b.hash → Node.beq a b = false) ∧
    (∀ a b : MerkleTree H T, a.root.hash ≠ b.root.hash →
      MerkleTree.beq a b = false) ∧
    (∀ t : MerkleTree H T, t.stdHashFeed = t.root.hash) ∧
    (∀ n : Node H T, n.stdHashFeed = n.hash) ∧
    (∀ ln : LeafNode H T, ln.stdHashFeed = ln.hash) ∧
    (∀ hn : HashNode H T, hn.stdHashFeed = hn.hash) := by
  refine ⟨?_, ?_, fun _ _ _ _ => rfl, fun _ _ _ _ => rfl, ?_, ?_,
    fun _ => rfl, fun _ => rfl, fun _ => rfl, fun _ => rfl⟩
  · intro h d d'
    simp [LeafNode.beq]
  · intro h cs cs'
    simp [HashNode.beq]
  · intro a b hne
    cases a <;> cases b <;> simp_all [Node.beq, Node.hash]
  · intro a b hne
    rcases a with ⟨ra⟩
    rcases b with ⟨rb⟩
    unfold MerkleTree.beq
    cases ra <;> cases rb <;> simp_all [Node.beq, Node.hash]

/-- Witness for C8: data-insensitive leaf equality at hash 0 with data
5 and 7, and variant-respecting inequality at distinct hashes 0 and 1. -/
theorem spec_C8_witness :
    LeafNode.beq (⟨0, 5⟩ : LeafNode Nat Nat) ⟨0, 7⟩ = true ∧
    Node.beq (Node.leaf (0 : Nat) (0 : Nat)) (Node.leaf 1 0) = false :=
  ⟨spec_C8_hash_only_equality.1 0 5 7,
   spec_C8_hash_only_equality.2.2.2.2.1 (Node.leaf 0 0) (Node.leaf 1 0)
     (by decide)⟩

/-- C9 divergence witness (code bug): on a freshly obtained
`child_hashes()` iterator of an internal node with one child, the length
reports 1 and forward iteration yields that child's hash, but the first
`next_back()` returns `none` instead of the last child's hash — `pos`
starts at 0 and `next_back` only walks the region before `pos`. -/
theorem spec_C9_child_hashes_next_back_bug :
    (HashNode.child_hashes (⟨0, [Node.leaf 7 0]⟩ : HashNode Nat Nat)).len
      = 1 ∧
    (HashNode.child_hashes (⟨0, [Node.leaf 7 0]⟩ : HashNode Nat Nat)).next
      = some (7, ⟨[7], 1, 1⟩) ∧
    (HashNode.child_hashes
      (⟨0, [Node.leaf 7 0]⟩ : HashNode Nat Nat)).next_back = none := by
  refine ⟨rfl, ?_, ?_⟩
  · simp [HashNode.child_hashes, NodeHashes.next, Node.hash]
  · simp [HashNode.child_hashes, NodeHashes.next_back]

/-- C10: cross-variant equality is always false — a leaf node never
compares equal to an internal node through any of the `PartialEq` impls,
and a leaf-rooted tree never compares equal to an internal-rooted tree,
even when both carry the identical hash value `h`. -/
theorem spec_C10_cross_variant_inequality {H T : Type} [DecidableEq H]
    (h : H) (d : T) (cs : List (Node H T)) (ln : LeafNode H T)
    (hn : HashNode H T) :
    Node.beq (.leaf h d) (.internal h cs) = false ∧
    Node.beq (.internal h cs) (.leaf h d) = false ∧
    Node.beqLeafNode (.internal h cs) ln = false ∧
    Node.beqHashNode (.leaf h d) hn = false ∧
    LeafNode.beqNode ln (.internal h cs) = false ∧
    HashNode.beqNode hn (.leaf h d) = false ∧
    MerkleTree.beq ⟨.leaf h d⟩ ⟨.internal h cs⟩ = false ∧
    MerkleTree.beq ⟨.internal h cs⟩ ⟨.leaf h d⟩ = false :=
  ⟨rfl, rfl, rfl, rfl, rfl, rfl, rfl, rfl⟩

end ClaimTheoremsTwo
